import Mathlib

/-!
Verification of the cheetah curve library's lookup-table / scalar-multiplication
engine (`src/lookup.rs`) and of the sextic-extension field layer (`src/fp6.rs`).

Shallow embedding conventions:

* `src/fp6.rs` is present in the repository, so `Fp6` below is a direct
  translation of its code.  Its coefficient field `Fp2` (file `fp2.rs`) is NOT
  part of the provided sources; per the spec (section 6, Field Tower contract)
  it is modelled as an abstract field `F` with decidable equality, and the
  fallible inversion of the Field Tower contract is `fp2Invert` below.
* `src/lookup.rs` is present; its digit handling (i8 mask arithmetic, the
  constant-time scan) is translated directly.  The point types
  (`AffinePoint`, `ProjectivePoint`, file `curve.rs`) are NOT in the provided
  sources; per the spec (sections 2-4: the point types represent elements of
  the curve group, `double_multi k` performs `k` doublings,
  `batch_normalize` converts representations without changing the point)
  they are modelled by an abstract additive commutative group `G`.
  `add_mixed_unchecked` computes the group law ONLY outside the degenerate
  cases it does not handle (spec sections 4.2-4.3: accumulator identity, or
  accumulator equal to the entry or its negation); on a degenerate call its
  output is unspecified, which the model renders as `none`.
-/

/-! ## The field `Fp6` (translated from `src/fp6.rs`)

`Fp6` is a cubic extension of `Fp2` with defining polynomial `v^3 - v - 2`
(the multiplication formulas below encode `v^3 = v + 2`).  The coefficient
type is the abstract Field Tower field `F`. -/

set_option linter.unusedSectionVars false
set_option linter.unusedVariables false

/-- An element of the extension `GF(p^6)`: coefficients `c0 + c1 v + c2 v^2`
over the Field Tower field `F` (the missing `Fp2`). -/
@[ext]
structure Fp6 (F : Type) where
  c0 : F
  c1 : F
  c2 : F
deriving DecidableEq

namespace Fp6

variable {F : Type} [Field F] [DecidableEq F]

/-- The additive identity (`Fp6::zero`). -/
def zero : Fp6 F := ⟨0, 0, 0⟩

/-- The multiplicative identity (`Fp6::one`). -/
def one : Fp6 F := ⟨1, 0, 0⟩

/-- Addition (`Fp6::add`), coefficientwise. -/
def add (x y : Fp6 F) : Fp6 F := ⟨x.c0 + y.c0, x.c1 + y.c1, x.c2 + y.c2⟩

/-- Subtraction (`Fp6::sub`), coefficientwise. -/
def sub (x y : Fp6 F) : Fp6 F := ⟨x.c0 - y.c0, x.c1 - y.c1, x.c2 - y.c2⟩

/-- Negation (`Fp6::neg`), coefficientwise. -/
def neg (x : Fp6 F) : Fp6 F := ⟨-x.c0, -x.c1, -x.c2⟩

/-- Multiplication (`Fp6::mul`): the interpolation-style formula from the
source, encoding the relation `v^3 = v + 2`. -/
def mul (x y : Fp6 F) : Fp6 F :=
  let aa := x.c0 * y.c0
  let bb := x.c1 * y.c1
  let cc := x.c2 * y.c2
  let tmp0 := (x.c1 + x.c2) * (y.c1 + y.c2)
  let tmp1 := (x.c0 + x.c1) * (y.c0 + y.c1)
  let tmp2 := (x.c0 + x.c2) * (y.c0 + y.c2)
  ⟨(tmp0 - bb - cc) * 2 + aa,
   tmp0 + tmp1 - aa - bb - bb + cc,
   tmp2 - aa + bb⟩

/-- Squaring (`Fp6::square`); same formula as `mul` with both operands equal. -/
def square (x : Fp6 F) : Fp6 F :=
  let aa := x.c0 * x.c0
  let bb := x.c1 * x.c1
  let cc := x.c2 * x.c2
  let tmp0 := (x.c1 + x.c2) * (x.c1 + x.c2)
  let tmp1 := (x.c0 + x.c1) * (x.c0 + x.c1)
  let tmp2 := (x.c0 + x.c2) * (x.c0 + x.c2)
  ⟨(tmp0 - bb - cc) * 2 + aa,
   tmp0 + tmp1 - aa - bb - bb + cc,
   tmp2 - aa + bb⟩

theorem square_eq_mul_self (x : Fp6 F) : x.square = x.mul x := by
  simp only [square, mul]

theorem mul_zero_right (x : Fp6 F) : x.mul zero = zero := by
  simp only [mul, zero]
  ext <;> simp

theorem square_zero : (zero : Fp6 F).square = zero := by
  simp only [square, zero]
  ext <;> simp

end Fp6

/-! ## Exponentiation (`Fp6::exp_vartime`) and square roots (`Fp6::sqrt_vartime`)

`exp_vartime` walks the 64-bit limbs of the exponent from the most significant
limb (`by.iter().rev()`) and, inside each limb, from bit 63 down to bit 0,
squaring at every step and multiplying by the base exactly when the bit is
set.  We factor the double loop into an explicit big-endian bit list. -/

/-- The 6-limb little-endian constant `MODULUS_MINUS_ONE_DIV_TWO`
from `src/fp6.rs`: `(p^6 - 1) / 2`. -/
def MODULUS_MINUS_ONE_DIV_TWO : List ℕ :=
  [0xbfff598000000000, 0x953f2fe05a3de000, 0xc22d66eed23dc5ea,
   0xb9538f1d34e3dc07, 0xa978d997e2ea6efc, 0x0007ffd6605a3d77]

/-- The 6-limb little-endian constant `MODULUS_PLUS_ONE_DIV_TWO`
from `src/fp6.rs`: `(p^6 + 1) / 2`. -/
def MODULUS_PLUS_ONE_DIV_TWO : List ℕ :=
  [0xbfff598000000001, 0x953f2fe05a3de000, 0xc22d66eed23dc5ea,
   0xb9538f1d34e3dc07, 0xa978d997e2ea6efc, 0x0007ffd6605a3d77]

/-- The bits of one 64-bit limb, most significant first
(the inner loop `for i in (0..64).rev()`). -/
def limbBitsBE (e : ℕ) : List Bool :=
  (List.range 64).reverse.map (fun i => e.testBit i)

/-- All bits of a little-endian limb array, most significant limb first
(the outer loop `for e in by.iter().rev()`). -/
def bitsBE (limbs : List ℕ) : List Bool :=
  (limbs.reverse.map limbBitsBE).flatten

namespace Fp6

variable {F : Type} [Field F] [DecidableEq F]

/-- One step of the square-and-multiply loop of `exp_vartime`:
`res = res.square(); if bit { res *= self }`. -/
def expStep (x res : Fp6 F) (b : Bool) : Fp6 F :=
  if b then (res.square).mul x else res.square

/-- The square-and-multiply loop of `exp_vartime` over an explicit bit list. -/
def expBits (x : Fp6 F) (bs : List Bool) : Fp6 F :=
  bs.foldl (expStep x) one

/-- `Fp6::exp_vartime`: exponentiation by a little-endian 6-limb integer. -/
def exp_vartime (x : Fp6 F) (e : List ℕ) : Fp6 F :=
  expBits x (bitsBE e)

theorem square_one : (one : Fp6 F).square = one := by
  simp only [square, one]
  ext <;> simp

theorem expStep_zero_absorb (b : Bool) :
    expStep (zero : Fp6 F) zero b = zero := by
  cases b <;> simp [expStep, square_zero, mul_zero_right]

theorem foldl_expStep_zero (bs : List Bool) :
    bs.foldl (expStep (zero : Fp6 F)) zero = zero := by
  induction bs with
  | nil => rfl
  | cons b bs ih => simpa [expStep_zero_absorb] using ih

theorem expBits_zero_of_mem (bs : List Bool) (h : true ∈ bs) :
    expBits (zero : Fp6 F) bs = zero := by
  induction bs with
  | nil => cases h
  | cons b bs ih =>
    cases h with
    | head =>
      -- head bit is set: the accumulator becomes `one.square * zero = zero`
      -- and then stays zero forever
      simp only [expBits, List.foldl_cons, expStep, if_pos rfl, mul_zero_right]
      exact foldl_expStep_zero bs
    | tail _ h =>
      cases b
      · simpa [expBits, expStep, square_one] using ih h
      · simp only [expBits, List.foldl_cons, expStep, if_pos rfl, mul_zero_right]
        exact foldl_expStep_zero bs

theorem exp_vartime_zero_of_mem (e : List ℕ) (h : true ∈ bitsBE e) :
    exp_vartime (zero : Fp6 F) e = zero :=
  expBits_zero_of_mem _ h

/-- The helper `mul_in_fp12` nested in `Fp6::sqrt_vartime`: multiplication of
pairs `a[0] + a[1]·w` in `Fp6[w]/(w^2 - beta)`. -/
def mulInFp12 (a b : Fp6 F × Fp6 F) (beta : Fp6 F) : Fp6 F × Fp6 F :=
  let v0 := a.1.mul b.1
  let v1 := a.2.mul b.2
  let c0 := v0.add (beta.mul v1)
  let c1 := (((a.1.add a.2).mul (b.1.add b.2)).sub v0).sub v1
  (c0, c1)

/-- The helper `exp_vartime_in_fp12` nested in `Fp6::sqrt_vartime`:
square-and-multiply over pairs, same bit order as `exp_vartime`. -/
def expVartimeInFp12 (a : Fp6 F × Fp6 F) (e : List ℕ) (beta : Fp6 F) :
    Fp6 F × Fp6 F :=
  (bitsBE e).foldl
    (fun res b =>
      let sq := mulInFp12 res res beta
      if b then mulInFp12 sq a beta else sq)
    (one, zero)

/-- The search loop of `Fp6::sqrt_vartime`:
`while (a.square() - self).exp_vartime(MODULUS_MINUS_ONE_DIV_TWO) != -one { a += one }`.
The Rust loop has no bound; the embedding adds explicit fuel, and every theorem
below is quantified over the fuel (no result depends on the bound chosen). -/
def findNonResidueA (fuel : ℕ) (x a : Fp6 F) : Option (Fp6 F) :=
  match fuel with
  | 0 => none
  | fuel + 1 =>
    if ((a.square.sub x).exp_vartime MODULUS_MINUS_ONE_DIV_TWO) = one.neg
    then some a
    else findNonResidueA fuel x (a.add one)

/-- The tail of `Fp6::sqrt_vartime` once the non-residue witness `a` is found:
compute `(a + w)^((p^6+1)/2)` in `Fp6[w]/(w^2 - (a^2 - self))`, return `None`
if the `w`-component is nonzero, and return the `Fp6`-component only if its
square really is `self` (the final `self.ct_eq(&res[0].square())` check). -/
def sqrtFinish (x a : Fp6 F) : Option (Fp6 F) :=
  let beta := a.square.sub x
  let res := expVartimeInFp12 (a, one) MODULUS_PLUS_ONE_DIV_TWO beta
  if res.2 ≠ zero then none
  else if x = res.1.square then some res.1 else none

/-- `Fp6::sqrt_vartime` (Cipolla's algorithm):
1. Euler check `self^((p^6-1)/2) == one`, else return `None`;
2. search for `a` (starting at `Fp2::one().double() = 2`) with `a^2 - self` a
   non-residue;
3. finish via `sqrtFinish`. -/
def sqrt_vartime (fuel : ℕ) (x : Fp6 F) : Option (Fp6 F) :=
  if x.exp_vartime MODULUS_MINUS_ONE_DIV_TWO ≠ one then none
  else
    match findNonResidueA fuel x ⟨(1 : F) + 1, 0, 0⟩ with
    | none => none
    | some a => sqrtFinish x a

/-- The Euler-check exponent is a nonzero bit pattern. -/
theorem true_mem_bitsBE_modulus :
    true ∈ bitsBE MODULUS_MINUS_ONE_DIV_TWO := by decide

/-- On the zero element the Euler check computes `0^((p^6-1)/2) = 0 ≠ 1`,
so `sqrt_vartime` returns `None` even though `0 = 0 * 0` is a square. -/
theorem sqrt_vartime_zero (fuel : ℕ) :
    sqrt_vartime fuel (zero : Fp6 F) = none := by
  have h0 : (zero : Fp6 F).exp_vartime MODULUS_MINUS_ONE_DIV_TWO = zero :=
    exp_vartime_zero_of_mem _ true_mem_bitsBE_modulus
  have hne : (zero : Fp6 F) ≠ one := by
    intro h
    have := congrArg c0 h
    simp [zero, one] at this
  simp [sqrt_vartime, h0, hne]

theorem sqrtFinish_sound (x a r : Fp6 F) (h : sqrtFinish x a = some r) :
    r.mul r = x := by
  unfold sqrtFinish at h
  dsimp only at h
  split at h
  · exact absurd h (by simp)
  · split at h
    · rename_i hsq
      rw [Option.some_inj] at h
      subst h
      rw [← square_eq_mul_self, ← hsq]
    · exact absurd h (by simp)

/-- Whatever the fuel and input, a value returned by `sqrt_vartime` passes the
final `self.ct_eq(&res[0].square())` check, hence really is a square root. -/
theorem sqrt_vartime_sound (fuel : ℕ) (x r : Fp6 F)
    (h : sqrt_vartime fuel x = some r) : r.mul r = x := by
  unfold sqrt_vartime at h
  split at h
  · exact absurd h (by simp)
  · rcases hfind : findNonResidueA fuel x ⟨(1 : F) + 1, 0, 0⟩ with _ | a <;>
      rw [hfind] at h
    · exact absurd h (by simp)
    · exact sqrtFinish_sound x a r h

end Fp6

/-! ## Inversion (`Fp6::invert`) -/

/-- Modelled from the spec: the Field Tower contract's fallible inversion for
the coefficient field (`Fp2::invert`), "fallible, signaling failure on the
zero element". -/
def fp2Invert {F : Type} [Field F] [DecidableEq F] (y : F) : Option F :=
  if y = 0 then none else some y⁻¹

namespace Fp6

variable {F : Type} [Field F] [DecidableEq F]

/-- The scalar `inv` computed by `Fp6::invert` (the norm form of the cubic
extension, built from the source expression verbatim with
`three = 3`, `two = 2`, `four = 4`, `c0_sq = c0^2`, `c1_sq = c1^2`,
`c2_sq = c2^2`, `two_c1 = 2*c1`, `c0_c1 = c0*c1`). -/
def invDet (x : Fp6 F) : F :=
  x.c0 * (x.c0 * x.c0) - x.c0 * (x.c1 * x.c1)
    + (2 * x.c1) * (x.c1 * x.c1)
    + (x.c0 - 2 * x.c1) * (x.c2 * x.c2)
    + 4 * x.c2 * (x.c2 * x.c2)
    + 2 * (x.c0 * x.c0 - 3 * (x.c0 * x.c1)) * x.c2

/-- Coefficient `c0` of the pre-inverse computed by `Fp6::invert`. -/
def adjC0 (x : Fp6 F) : F :=
  x.c0 * x.c0 - x.c1 * x.c1 + 2 * (x.c0 - x.c1) * x.c2 + x.c2 * x.c2

/-- Coefficient `c1` of the pre-inverse computed by `Fp6::invert`. -/
def adjC1 (x : Fp6 F) : F :=
  -(x.c0 * x.c1 - 2 * (x.c2 * x.c2))

/-- Coefficient `c2` of the pre-inverse computed by `Fp6::invert`. -/
def adjC2 (x : Fp6 F) : F :=
  x.c1 * x.c1 - x.c0 * x.c2 - x.c2 * x.c2

/-- `Fp6::invert`: compute the norm `inv`, invert it in the coefficient field
(failing exactly on zero), and scale the pre-inverse coefficients by the
result. -/
def invert (x : Fp6 F) : Option (Fp6 F) :=
  match fp2Invert (invDet x) with
  | none => none
  | some t => some ⟨adjC0 x * t, adjC1 x * t, adjC2 x * t⟩

/-- The norm form is multiplicative (a polynomial identity). -/
theorem invDet_mul (x y : Fp6 F) :
    invDet (x.mul y) = invDet x * invDet y := by
  simp only [invDet, mul]
  ring

/-- Multiplying an element by its pre-inverse yields `inv` times the identity
(a polynomial identity, equivalent to the adjugate identity for the
multiplication-by-`x` map of the cubic extension). -/
theorem mul_adj (x : Fp6 F) :
    x.mul ⟨adjC0 x, adjC1 x, adjC2 x⟩ = ⟨invDet x, 0, 0⟩ := by
  simp only [mul, adjC0, adjC1, adjC2, invDet]
  ext <;> dsimp only <;> ring

theorem invDet_one : invDet (one : Fp6 F) = 1 := by
  simp only [invDet, one]
  norm_num

theorem invDet_zero : invDet (zero : Fp6 F) = 0 := by
  simp only [invDet, zero]
  ring

/-- Scaling the second operand scales the product (a polynomial identity). -/
theorem mul_scale (x : Fp6 F) (a b c t : F) :
    x.mul ⟨a * t, b * t, c * t⟩ =
      ⟨(x.mul ⟨a, b, c⟩).c0 * t, (x.mul ⟨a, b, c⟩).c1 * t,
       (x.mul ⟨a, b, c⟩).c2 * t⟩ := by
  simp only [mul]
  ext <;> dsimp only <;> ring

/-- If `x` has any multiplicative inverse at all, its norm form is nonzero. -/
theorem invDet_ne_zero (x : Fp6 F) (y : Fp6 F) (h : x.mul y = one) :
    invDet x ≠ 0 := by
  intro h0
  have := invDet_mul x y
  rw [h, invDet_one, h0, zero_mul] at this
  exact (one_ne_zero : (1 : F) ≠ 0) this

theorem invert_eq_none_iff (x : Fp6 F) :
    invert x = none ↔ invDet x = 0 := by
  by_cases h : invDet x = 0 <;> simp [invert, fp2Invert, h]

/-- `Fp6::lexicographically_largest`, translated verbatim; the Field Tower's
lexicographic-sign test on the coefficient field is the parameter `lex`, and
`is_zero` is equality with zero.  Note the third disjunct of the source tests
only `c1.is_zero`, not `c2.is_zero & c1.is_zero`. -/
def lexicographically_largest (lex : F → Bool) (x : Fp6 F) : Bool :=
  lex x.c2 || (decide (x.c2 = 0) && lex x.c1) || (decide (x.c1 = 0) && lex x.c0)

end Fp6

/-- `Fp6 F` is in bijection with coefficient triples. -/
def fp6EquivProd (F : Type) : Fp6 F ≃ F × F × F where
  toFun x := (x.c0, x.c1, x.c2)
  invFun p := ⟨p.1, p.2.1, p.2.2⟩
  left_inv _ := rfl
  right_inv _ := rfl

instance {F : Type} [Fintype F] [DecidableEq F] : Fintype (Fp6 F) :=
  Fintype.ofEquiv _ (fp6EquivProd F).symm

/-! ## Claims C4, C5, C9 (field layer) -/

/-- Claim C4: evaluation of the code at the failing input `x = 0`.  The
claim (and the function's own doc: "Computes the square root of this element,
if it exists") requires a value whenever a square root exists; `0 = 0 * 0`
has one, yet `sqrt_vartime 0` returns `None` — its Euler check computes
`0^((p^6-1)/2) = 0 ≠ 1` and rejects the input before searching (theorem
`Fp6.sqrt_vartime_zero` proves this over every coefficient field; here it is
evaluated over the `ZMod 3` model, and the fuel is irrelevant since the
search loop is never reached). -/
theorem claim4_sqrt_vartime_zero_bug :
    Fp6.sqrt_vartime 5 (Fp6.zero : Fp6 (ZMod 3)) = none ∧
    (Fp6.zero : Fp6 (ZMod 3)).mul Fp6.zero = Fp6.zero :=
  ⟨Fp6.sqrt_vartime_zero 5, Fp6.mul_zero_right _⟩

/-- Claim C5: `Fp6::invert x` returns no value if and only if `x` is zero, and
when it returns `y`, `x * y` is the multiplicative identity.  The hypothesis
`hfield` records the Field Tower fact (not derivable from the abstract
coefficient field alone) that the sextic extension really is a field, i.e.
every nonzero element has some inverse; the theorem then shows the concrete
norm/pre-inverse formulas of the source compute it. -/
theorem claim5_invert_correct (F : Type) [Field F] [DecidableEq F]
    (x : Fp6 F)
    (hfield : ∀ z : Fp6 F, z ≠ Fp6.zero → ∃ y : Fp6 F, z.mul y = Fp6.one) :
    (Fp6.invert x = none ↔ x = Fp6.zero) ∧
    (∀ y : Fp6 F, Fp6.invert x = some y → x.mul y = Fp6.one) := by
  constructor
  · constructor
    · intro hn
      by_contra hx
      obtain ⟨y, hy⟩ := hfield x hx
      exact Fp6.invDet_ne_zero x y hy ((Fp6.invert_eq_none_iff x).mp hn)
    · rintro rfl
      exact (Fp6.invert_eq_none_iff _).mpr Fp6.invDet_zero
  · intro y hy
    have hdet : Fp6.invDet x ≠ 0 := by
      intro h0
      rw [(Fp6.invert_eq_none_iff x).mpr h0] at hy
      exact Option.noConfusion hy
    have ht : Fp6.invert x =
        some ⟨Fp6.adjC0 x * (Fp6.invDet x)⁻¹, Fp6.adjC1 x * (Fp6.invDet x)⁻¹,
              Fp6.adjC2 x * (Fp6.invDet x)⁻¹⟩ := by
      simp [Fp6.invert, fp2Invert, hdet]
    rw [ht, Option.some_inj] at hy
    subst hy
    rw [Fp6.mul_scale x (Fp6.adjC0 x) (Fp6.adjC1 x) (Fp6.adjC2 x)
          (Fp6.invDet x)⁻¹, Fp6.mul_adj]
    simp only [Fp6.one]
    ext <;> dsimp only
    · exact mul_inv_cancel₀ hdet
    · exact zero_mul _
    · exact zero_mul _

/-- Claim C5, witness: over the 27-element model field `Fp6 (ZMod 3)` (the
cubic `v^3 - v - 2` has no root mod 3, so the extension is a field and the
`hfield` hypothesis is discharged by enumeration), `invert` at the concrete
input `one` behaves as claimed. -/
theorem claim5_invert_correct_witness :
    (∀ z : Fp6 (ZMod 3), z ≠ Fp6.zero → ∃ y : Fp6 (ZMod 3),
        z.mul y = Fp6.one) ∧
    ((Fp6.invert (Fp6.one : Fp6 (ZMod 3)) = none ↔
        (Fp6.one : Fp6 (ZMod 3)) = Fp6.zero) ∧
     (∀ y : Fp6 (ZMod 3), Fp6.invert Fp6.one = some y →
        Fp6.one.mul y = Fp6.one)) :=
  ⟨by decide, claim5_invert_correct (ZMod 3) Fp6.one (by decide)⟩

/-- The sign convention used for the C9 failing input: over the model
coefficient field `ZMod 3`, an element is "lexicographically largest" when it
is `2` (the unique element exceeding its negation), matching the Field Tower
contract for the sign test (odd on nonzero elements, false on zero). -/
def lexZMod3 : ZMod 3 → Bool := fun y => decide (y = 2)

/-- Claim C9: the claim asserts that for `x ≠ -x` exactly one of `x`, `-x`
satisfies `lexicographically_largest`, so the two can never both report
largest.  The code violates this: its third disjunct omits the `c2.is_zero`
guard, so with a valid sign test on the coefficients (first two conjuncts),
the element `x = (c0, c1, c2) = (2, 0, 1)` and its negation `(1, 0, 2)` BOTH
report largest — `x` through the unguarded `c1 = 0 && lex c0` clause, `-x`
through `lex c2`. -/
theorem claim9_lex_largest_both_true :
    (∀ y : ZMod 3, y ≠ -y → lexZMod3 y ≠ lexZMod3 (-y)) ∧
    (∀ y : ZMod 3, y = -y → lexZMod3 y = false) ∧
    (⟨2, 0, 1⟩ : Fp6 (ZMod 3)) ≠ Fp6.neg ⟨2, 0, 1⟩ ∧
    Fp6.lexicographically_largest lexZMod3 (⟨2, 0, 1⟩ : Fp6 (ZMod 3)) = true ∧
    Fp6.lexicographically_largest lexZMod3
      (Fp6.neg (⟨2, 0, 1⟩ : Fp6 (ZMod 3))) = true := by
  decide

/-! ## Lookup tables (`src/lookup.rs`)

The point types (`AffinePoint`, `ProjectivePoint`) of `curve.rs` are not in
the provided sources.  Modelled from the spec: the curve points form an
abelian group `G`; the affine/projective representation maps and
`batch_normalize` do not change the group element they represent, so both
representations are identified with `G`; `double_multi k` performs `k`
doublings; `add_mixed_unchecked` computes the group law only outside the
degenerate cases the unchecked formula does not handle (accumulator
identity, accumulator equal to the entry or its negation — spec sections
4.2-4.3 and claim C2), and its output on a degenerate call is unspecified,
modelled as `none`. -/

section Lookup

variable {G : Type} [AddCommGroup G]

/-- An i8 arithmetic right shift by 7 (`let xmask = x >> 7;`): all sign bits,
i.e. `0` for nonnegative and `-1` for negative 8-bit values.  On `ℤ`, `>>>`
is the floor-division shift, which agrees with the i8 shift on `[-128, 127]`. -/
def sar7 (x : ℤ) : ℤ := x >>> (7 : ℤ)

/-- The mask-based absolute value `let xabs = (x + xmask) ^ xmask;` of
`get_point`, written with the integer bitwise xor (which agrees with the i8
two's-complement xor on in-range values). -/
def i8abs (x : ℤ) : ℤ := Int.xor (x + sar7 x) (sar7 x)

/-- `conditional_assign` of the Field Tower contract: keep `t` or take the
new value according to the (constant-time) choice bit. -/
def ctSelect (t new : G) (c : Bool) : G := if c then new else t

/-- `LookupTable::get_point`: constant-time retrieval of `x.P`.  The source
scans `j = 1 ..= N` comparing `xabs` (cast to `u8`, faithful on the asserted
range) with `j` and selecting entry `j - 1`; here `j` runs over `0 .. N-1`
comparing `xabs` with `j + 1` and selecting entry `j`, the same scan.  The
final conditional negation uses `xmask & 1`, the low bit of the
two's-complement mask, i.e. `xmask % 2`. -/
def getPoint (tbl : ℕ → G) (N : ℕ) (x : ℤ) : G :=
  let t := (List.range N).foldl
    (fun (t : G) (j : ℕ) => ctSelect t (tbl j) (decide (i8abs x = (j : ℤ) + 1)))
    0
  ctSelect t (-t) (decide (sar7 x % 2 = 1))

/-- `LookupTable::get_point_vartime`: same scan with direct branching. -/
def getPointVartime (tbl : ℕ → G) (N : ℕ) (x : ℤ) : G :=
  let t := (List.range N).foldl
    (fun (t : G) (j : ℕ) => if i8abs x = (j : ℤ) + 1 then tbl j else t) 0
  if sar7 x % 2 = 1 then -t else t

theorem sar7_nonneg (x : ℤ) (h0 : 0 ≤ x) (h : x ≤ 127) : sar7 x = 0 := by
  lift x to ℕ using h0
  have h127 : x ≤ 127 := by exact_mod_cast h
  show (x : ℤ) >>> ((7 : ℕ) : ℤ) = 0
  rw [Int.shiftRight_coe_nat]
  have hx : x >>> 7 = 0 := by
    rw [Nat.shiftRight_eq_div_pow]
    omega
  rw [hx]
  rfl

theorem sar7_neg (x : ℤ) (h0 : x < 0) (h : -128 ≤ x) : sar7 x = -1 := by
  cases x with
  | ofNat m => exact absurd h0 (Int.ofNat_nonneg m).not_lt
  | negSucc m =>
    rw [Int.negSucc_eq] at h
    have hm : m ≤ 127 := by omega
    show Int.negSucc m >>> ((7 : ℕ) : ℤ) = -1
    rw [Int.shiftRight_negSucc]
    have hx : m >>> 7 = 0 := by
      rw [Nat.shiftRight_eq_div_pow]
      omega
    rw [hx]
    rfl

theorem int_xor_zero_right (n : ℕ) : Int.xor (n : ℤ) 0 = n := by
  show Int.ofNat (n ^^^ 0) = n
  rw [Nat.xor_zero]
  rfl

theorem int_xor_negOne (x : ℤ) (h0 : x < 0) : Int.xor x (-1) = -x - 1 := by
  cases x with
  | ofNat m => exact absurd h0 (Int.ofNat_nonneg m).not_lt
  | negSucc m =>
    show Int.ofNat (m ^^^ 0) = -Int.negSucc m - 1
    rw [Nat.xor_zero, Int.negSucc_eq]
    simp

theorem i8abs_nonneg (x : ℤ) (h0 : 0 ≤ x) (h : x ≤ 127) : i8abs x = x := by
  unfold i8abs
  rw [sar7_nonneg x h0 h, add_zero]
  lift x to ℕ using h0
  exact int_xor_zero_right x

theorem i8abs_neg (x : ℤ) (h0 : x < 0) (h : -127 ≤ x) : i8abs x = -x := by
  unfold i8abs
  rw [sar7_neg x h0 (by omega), int_xor_negOne (x + -1) (by omega)]
  ring

/-- The constant-time scan selects exactly the entry the digit designates. -/
theorem foldl_select (tbl : ℕ → G) (xv : ℤ) (N : ℕ) :
    (List.range N).foldl
        (fun (t : G) (j : ℕ) => if xv = (j : ℤ) + 1 then tbl j else t) 0
      = if 1 ≤ xv ∧ xv ≤ (N : ℤ) then tbl (xv.toNat - 1) else 0 := by
  induction N with
  | zero =>
    rw [if_neg (by omega)]
    rfl
  | succ N ih =>
    rw [List.range_succ, List.foldl_append, List.foldl_cons, List.foldl_nil, ih]
    by_cases hN : xv = (N : ℤ) + 1
    · rw [if_pos hN, if_pos (show 1 ≤ xv ∧ xv ≤ ((N + 1 : ℕ) : ℤ) by omega)]
      congr 1
      omega
    · rw [if_neg hN]
      by_cases hin : 1 ≤ xv ∧ xv ≤ (N : ℤ)
      · rw [if_pos hin, if_pos (show 1 ≤ xv ∧ xv ≤ ((N + 1 : ℕ) : ℤ) by omega)]
      · rw [if_neg hin,
          if_neg (show ¬(1 ≤ xv ∧ xv ≤ ((N + 1 : ℕ) : ℤ)) by omega)]


/-- `get_point` and `get_point_vartime` are the same function of the table and
digit: the constant-time `ct_eq`/`conditional_assign` scan computes exactly
the branching scan. -/
theorem getPoint_eq_vartime (tbl : ℕ → G) (N : ℕ) (x : ℤ) :
    getPoint tbl N x = getPointVartime tbl N x := by
  have hb : (fun (t : G) (j : ℕ) =>
        ctSelect t (tbl j) (decide (i8abs x = (j : ℤ) + 1)))
      = (fun (t : G) (j : ℕ) => if i8abs x = (j : ℤ) + 1 then tbl j else t) := by
    funext t j
    by_cases h : i8abs x = (j : ℤ) + 1 <;> simp [ctSelect, h]
  simp only [getPoint, getPointVartime, hb]
  by_cases hm : sar7 x % 2 = 1 <;> simp [ctSelect, hm]

/-- Closed form of `get_point_vartime` on the i8 range: entry `x - 1` for
positive digits, the negated entry at `-x - 1` for negative digits, and the
identity for `x = 0`. -/
theorem getPointVartime_eq (tbl : ℕ → G) (N : ℕ) (x : ℤ)
    (hN : N ≤ 127) (h1 : -(N : ℤ) ≤ x) (h2 : x ≤ (N : ℤ)) :
    getPointVartime tbl N x =
      if 1 ≤ x then tbl (x.toNat - 1)
      else if x ≤ -1 then -(tbl ((-x).toNat - 1)) else 0 := by
  simp only [getPointVartime]
  by_cases h0 : 0 ≤ x
  · rw [i8abs_nonneg x h0 (by omega), sar7_nonneg x h0 (by omega),
      foldl_select tbl x N, if_neg (show ¬((0 : ℤ) % 2 = 1) by decide)]
    by_cases hx1 : 1 ≤ x
    · rw [if_pos (show 1 ≤ x ∧ x ≤ (N : ℤ) by omega), if_pos hx1]
    · rw [if_neg (show ¬(1 ≤ x ∧ x ≤ (N : ℤ)) by omega), if_neg hx1,
        if_neg (show ¬(x ≤ -1) by omega)]
  · rw [i8abs_neg x (by omega) (by omega), sar7_neg x (by omega) (by omega),
      foldl_select tbl (-x) N, if_pos (show (-1 : ℤ) % 2 = 1 by decide),
      if_pos (show 1 ≤ -x ∧ -x ≤ (N : ℤ) by omega),
      if_neg (show ¬(1 ≤ x) by omega), if_pos (show x ≤ -1 by omega)]

/-- The chain of projective points built by `LookupTable::from`:
`points[0] = p`, `points[i] = p + points[i-1]`. -/
def projPoints (P : G) : ℕ → G
  | 0 => P
  | k + 1 => P + projPoints P k

/-- `LookupTable::from(p)`: the table entry at index `j` is `points[j]`;
the final `batch_normalize` converts projective to affine coordinates and,
in the group model, leaves the represented point unchanged. -/
def lookupFrom (P : G) : ℕ → G := fun j => projPoints P j

theorem projPoints_eq (P : G) (k : ℕ) : projPoints P k = (k + 1) • P := by
  induction k with
  | zero => simp [projPoints]
  | succ k ih =>
    have h : (k + 1 + 1) • P = (k + 1) • P + P := succ_nsmul P (k + 1)
    rw [projPoints, ih, h, add_comm]

/-- Retrieval from a table of multiples computes the digit multiple. -/
theorem getPoint_lookupFrom (P : G) (N : ℕ) (d : ℤ)
    (hN : N ≤ 127) (h1 : -(N : ℤ) ≤ d) (h2 : d ≤ (N : ℤ)) :
    getPoint (lookupFrom P) N d = d • P := by
  rw [getPoint_eq_vartime, getPointVartime_eq (lookupFrom P) N d hN h1 h2]
  by_cases hp : 1 ≤ d
  · rw [if_pos hp]
    show projPoints P (d.toNat - 1) = d • P
    rw [projPoints_eq]
    have h : d.toNat - 1 + 1 = d.toNat := by omega
    rw [h, ← natCast_zsmul]
    congr 1
    omega
  · by_cases hn : d ≤ -1
    · rw [if_neg hp, if_pos hn]
      show -(projPoints P ((-d).toNat - 1)) = d • P
      rw [projPoints_eq]
      have h : (-d).toNat - 1 + 1 = (-d).toNat := by omega
      rw [h, ← natCast_zsmul, ← neg_zsmul]
      congr 1
      omega
    · rw [if_neg hp, if_neg hn]
      have h : d = 0 := by omega
      rw [h, zero_zsmul]

/-- Claim C3: for every base point `P` and every `N >= 1`, the lookup table
built from `P` holds the ordered affine multiples `[P, 2P, ..., NP]`: entry
`i - 1` equals `i • P` for `1 <= i <= N` (table built by seeding with `P`,
adding `P` `N - 1` times, and batch-normalizing to affine). -/
theorem claim3_lookup_table_entries (P : G) (N i : ℕ)
    (h1 : 1 ≤ i) (h2 : i ≤ N) :
    lookupFrom P (i - 1) = i • P := by
  show projPoints P (i - 1) = i • P
  rw [projPoints_eq]
  congr 1
  omega

/-- Claim C3, witness: in the group `ℤ` with base point `2`, entry `2` of the
table of `N = 8` multiples is `3 • 2 = 6`. -/
theorem claim3_lookup_table_entries_witness :
    (1 ≤ 3 ∧ 3 ≤ 8) ∧ lookupFrom (2 : ℤ) (3 - 1) = 3 • (2 : ℤ) :=
  ⟨by decide, claim3_lookup_table_entries (2 : ℤ) 8 3 (by decide) (by decide)⟩

/-- Claim C6: for every `N`, every lookup table built from a point, and every
digit `x` with `-N <= x <= N`, constant-time and variable-time retrieval
agree: `get_point(x) == get_point_vartime(x)`. -/
theorem claim6_get_point_ct_vartime_agree (P : G) (N : ℕ) (x : ℤ)
    (hN : N ≤ 127) (h1 : -(N : ℤ) ≤ x) (h2 : x ≤ (N : ℤ)) :
    getPoint (lookupFrom P) N x = getPointVartime (lookupFrom P) N x :=
  getPoint_eq_vartime (lookupFrom P) N x

/-- Claim C6, witness: in the group `ℤ` with base point `1`, `N = 8` and
digit `-3`. -/
theorem claim6_get_point_ct_vartime_agree_witness :
    ((8 : ℕ) ≤ 127 ∧ -(8 : ℤ) ≤ -3 ∧ (-3 : ℤ) ≤ 8) ∧
    getPoint (lookupFrom (1 : ℤ)) 8 (-3) =
      getPointVartime (lookupFrom (1 : ℤ)) 8 (-3) :=
  ⟨by decide,
   claim6_get_point_ct_vartime_agree (1 : ℤ) 8 (-3) (by decide) (by decide)
     (by decide)⟩

/-- Claim C7: retrieval is odd-symmetric on the whole digit range, including
`x = 0`: `get_point(x) == -get_point(-x)`. -/
theorem claim7_get_point_odd_symmetric (P : G) (N : ℕ) (x : ℤ)
    (hN : N ≤ 127) (h1 : -(N : ℤ) ≤ x) (h2 : x ≤ (N : ℤ)) :
    getPoint (lookupFrom P) N x = -(getPoint (lookupFrom P) N (-x)) := by
  rw [getPoint_lookupFrom P N x hN h1 h2,
    getPoint_lookupFrom P N (-x) hN (by omega) (by omega), neg_zsmul, neg_neg]

/-- Claim C7, witness: in the group `ℤ` with base point `1`, `N = 8` and
digit `0` (the inclusion of `x = 0` is the delicate case: both sides are the
identity). -/
theorem claim7_get_point_odd_symmetric_witness :
    ((8 : ℕ) ≤ 127 ∧ -(8 : ℤ) ≤ 0 ∧ (0 : ℤ) ≤ 8) ∧
    getPoint (lookupFrom (1 : ℤ)) 8 0 = -(getPoint (lookupFrom (1 : ℤ)) 8 (-0)) :=
  ⟨by decide,
   claim7_get_point_odd_symmetric (1 : ℤ) 8 0 (by decide) (by decide)
     (by decide)⟩

/-- Claim C10: for every `N >= 1` and every table built from a point, both
retrievals at digit `0` return the identity point, although the table stores
only `P .. N•P`. -/
theorem claim10_get_point_zero (P : G) (N : ℕ) (hN1 : 1 ≤ N) :
    getPoint (lookupFrom P) N 0 = 0 ∧ getPointVartime (lookupFrom P) N 0 = 0 := by
  have hv : getPointVartime (lookupFrom P) N 0 = 0 := by
    simp only [getPointVartime]
    rw [i8abs_nonneg 0 le_rfl (by norm_num), sar7_nonneg 0 le_rfl (by norm_num),
      foldl_select (lookupFrom P) 0 N,
      if_neg (show ¬((0 : ℤ) % 2 = 1) by decide),
      if_neg (show ¬((1 : ℤ) ≤ 0 ∧ (0 : ℤ) ≤ (N : ℤ)) by omega)]
  exact ⟨by rw [getPoint_eq_vartime]; exact hv, hv⟩

/-- Claim C10, witness: in the group `ℤ` with base point `5` and `N = 8`. -/
theorem claim10_get_point_zero_witness :
    (1 ≤ 8) ∧ getPoint (lookupFrom (5 : ℤ)) 8 0 = 0 ∧
      getPointVartime (lookupFrom (5 : ℤ)) 8 0 = 0 :=
  ⟨by decide, claim10_get_point_zero (5 : ℤ) 8 (by decide)⟩

/-! ## `BasePointTable` (from `src/lookup.rs`)

`BasePointTable::create` stores 32 tables of 8 multiples, table `i` holding
multiples of the base point doubled `8 i` times; `multiply` folds the odd
digits into an accumulator seeded at `SHIFT_POINT`, doubles 4 times, folds
the even digits, and finally adds `MINUS_SHIFT_POINT_ARRAY[4]`.  The shift
point is an arbitrary group element `S`; `MINUS_SHIFT_POINT_ARRAY[k]` is
modelled from the spec as the precomputed `-(2^k) • S` ("subtract the
table's precomputed total shift contribution"). -/

/-- `double_multi k`: `k` successive doublings.  Modelled from the spec
(section 4.2). -/
def doubleMulti (k : ℕ) (Q : G) : G := (2 ^ k : ℤ) • Q

/-- `add_mixed_unchecked`.  Modelled from the spec (sections 4.2-4.3): the
unchecked mixed-addition formula computes the group law only when the caller
has excluded the degenerate cases it does not handle — accumulator identity,
or accumulator equal to the entry or its negation (the identity ENTRY, which
`get_point` returns for zero digits on every ordinary scalar, is not among
the unhandled cases per claim C2's wording).  On a degenerate call the
formula's output is unspecified, modelled as `none`. -/
def addMixedUnchecked [DecidableEq G] (acc e : G) : Option G :=
  if acc = 0 ∨ acc = e ∨ acc = -e then none else some (acc + e)

/-- The chain of points of `BasePointTable::create`: `point` starts at the
base point and is doubled 8 times between tables. -/
def basePoints (P : G) : ℕ → G
  | 0 => P
  | i + 1 => doubleMulti 8 (basePoints P i)

/-- `BasePointTable::create`: table `i` is the lookup table of 8 multiples of
the `i`-th chained point. -/
def basePointTable (P : G) (i : ℕ) : ℕ → G := lookupFrom (basePoints P i)

/-- `MINUS_SHIFT_POINT_ARRAY[k]`.  Modelled from the spec: the precomputed
point cancelling the shift contribution `2^k • S` accumulated by the
doublings. -/
def minusShiftPoint (S : G) (k : ℕ) : G := -(doubleMulti k S)

/-- `BasePointTable::multiply`: fold the odd-indexed digits (seeded at the
shift point `S`), apply 4 doublings, fold the even-indexed digits, then add
`MINUS_SHIFT_POINT_ARRAY[4]`.  Every accumulation step goes through the
partial `addMixedUnchecked`, so the result is `none` as soon as one call is
degenerate (its real output being unspecified there). -/
def basePointMultiply [DecidableEq G] (P S : G) (a : ℕ → ℤ) : Option G :=
  let f := fun (acc : Option G) (i : ℕ) =>
    acc.bind (fun t => addMixedUnchecked t (getPoint (basePointTable P (i / 2)) 8 (a i)))
  let acc1 := ((List.range 64).filter (fun i => i % 2 == 1)).foldl f (some S)
  let acc2 := acc1.map (doubleMulti 4)
  let acc3 := ((List.range 64).filter (fun i => i % 2 == 0)).foldl f acc2
  acc3.bind (fun t => addMixedUnchecked t (minusShiftPoint S 4))

theorem range_map_sum {M : Type} [AddCommMonoid M] (g : ℕ → M) (n : ℕ) :
    ((List.range n).map g).sum = Finset.sum (Finset.range n) g := by
  induction n with
  | zero => simp
  | succ n ih =>
    rw [List.range_succ, List.map_append, List.sum_append,
      Finset.sum_range_succ, ih]
    simp

theorem sum_range_even_odd {M : Type} [AddCommMonoid M] (g : ℕ → M) (n : ℕ) :
    Finset.sum (Finset.range (2 * n)) g
      = Finset.sum (Finset.range n) (fun k => g (2 * k))
        + Finset.sum (Finset.range n) (fun k => g (2 * k + 1)) := by
  induction n with
  | zero => simp
  | succ n ih =>
    have h2 : 2 * (n + 1) = 2 * n + 1 + 1 := by ring
    rw [h2, Finset.sum_range_succ, Finset.sum_range_succ, ih,
      Finset.sum_range_succ, Finset.sum_range_succ]
    have hn : 2 * n + 1 = 2 * n + 1 := rfl
    abel

theorem basePoints_eq (P : G) (k : ℕ) :
    basePoints P k = ((2 : ℤ) ^ (8 * k)) • P := by
  induction k with
  | zero => simp [basePoints]
  | succ k ih =>
    rw [basePoints, doubleMulti, ih, smul_smul, ← pow_add]
    congr 1
    ring

theorem odd_filter_eq :
    (List.range 64).filter (fun i => i % 2 == 1)
      = (List.range 32).map (fun k => 2 * k + 1) := by decide

theorem even_filter_eq :
    (List.range 64).filter (fun i => i % 2 == 0)
      = (List.range 32).map (fun k => 2 * k) := by decide

/-- Every table entry retrieved during `multiply` is the digit times the
table's base multiple. -/
theorem multiply_term_eq (P : G) (a : ℕ → ℤ)
    (hrange : ∀ i, i < 64 → -8 ≤ a i ∧ a i ≤ 8) (i : ℕ) (hi : i < 64) :
    getPoint (basePointTable P (i / 2)) 8 (a i)
      = (a i * 2 ^ (8 * (i / 2))) • P := by
  have hb := hrange i hi
  rw [basePointTable, getPoint_lookupFrom (basePoints P (i / 2)) 8 (a i)
      (by norm_num) (by exact_mod_cast hb.1) (by exact_mod_cast hb.2),
    basePoints_eq, smul_smul]

/-- A scalar written in signed radix 16 by 64 digits splits into its even and
odd digit halves, each a base-256 combination, the odd half carrying the
extra factor `2^4`. -/
theorem radix16_sum_split (a : ℕ → ℤ) (s : ℤ)
    (hsum : Finset.sum (Finset.range 64) (fun i => a i * 16 ^ i) = s) :
    s = Finset.sum (Finset.range 32) (fun k => a (2 * k) * 2 ^ (8 * k))
      + (2 : ℤ) ^ 4 * Finset.sum (Finset.range 32)
          (fun k => a (2 * k + 1) * 2 ^ (8 * k)) := by
  have he : ∀ k ∈ Finset.range 32,
      a (2 * k) * 16 ^ (2 * k) = a (2 * k) * 2 ^ (8 * k) := by
    intro k hk
    rw [show (16 : ℤ) = 2 ^ 4 from by norm_num, ← pow_mul,
      show 4 * (2 * k) = 8 * k from by ring]
  have ho : ∀ k ∈ Finset.range 32,
      a (2 * k + 1) * 16 ^ (2 * k + 1)
        = (2 : ℤ) ^ 4 * (a (2 * k + 1) * 2 ^ (8 * k)) := by
    intro k hk
    rw [show (16 : ℤ) = 2 ^ 4 from by norm_num, ← pow_mul,
      show 4 * (2 * k + 1) = 8 * k + 4 from by ring, pow_add]
    ring
  rw [← hsum, show (64 : ℕ) = 2 * 32 from by norm_num, sum_range_even_odd,
    Finset.sum_congr rfl he, Finset.sum_congr rfl ho, ← Finset.mul_sum]

/-! ## The accumulation trace of `multiply` (claim C2)

`multiplyTrace` records, for each of the 64 `add_mixed_unchecked` calls on
table entries inside `BasePointTable::multiply`, the accumulator entering the
call and the affine entry being added.  A call is degenerate — outside the
contract of the unchecked formula — when the accumulator is the identity or
equals the entry or its negation. -/

/-- Fold one digit phase, recording `(accumulator before the step, entry)`
for every step.  The accumulation uses the group law directly: this is the
specification-level value the accumulator is meant to carry, and it coincides
with the real execution up to and including the first degenerate step (before
any degenerate call, `add_mixed_unchecked` computes exactly this). -/
def accRun (g : ℕ → G) (init : G) (l : List ℕ) : G × List (G × G) :=
  l.foldl (fun st i => (st.1 + g i, st.2 ++ [(st.1, g i)]))
    (init, [])

/-- The 64 unchecked mixed-addition steps on table entries performed by
`BasePointTable::multiply` (odd-digit phase seeded at the shift point, then
the even-digit phase seeded at the quadrupled accumulator). -/
def multiplyTrace (P S : G) (a : ℕ → ℤ) : List (G × G) :=
  let g := fun (i : ℕ) => getPoint (basePointTable P (i / 2)) 8 (a i)
  let r1 := accRun g S ((List.range 64).filter (fun i => i % 2 == 1))
  let r2 := accRun g (doubleMulti 4 r1.1)
    ((List.range 64).filter (fun i => i % 2 == 0))
  r1.2 ++ r2.2

theorem accRun_go (g : ℕ → G) (l : List ℕ) :
    ∀ (init : G) (tr : List (G × G)),
      l.foldl (fun st i => (st.1 + g i, st.2 ++ [(st.1, g i)]))
          (init, tr)
        = ((accRun g init l).1, tr ++ (accRun g init l).2) := by
  induction l with
  | nil => intro init tr; simp [accRun]
  | cons i l ih =>
    intro init tr
    rw [List.foldl_cons]
    show l.foldl _ (init + g i, tr ++ [(init, g i)]) = _
    rw [ih]
    have h2 : accRun g init (i :: l)
        = ((accRun g (init + g i) l).1,
            (init, g i) :: (accRun g (init + g i) l).2) := by
      show (l.foldl _ (init + g i, [] ++ [(init, g i)])) = _
      rw [ih]
      simp
    rw [h2]
    simp

theorem accRun_cons (g : ℕ → G) (i : ℕ) (l : List ℕ) (init : G) :
    accRun g init (i :: l)
      = ((accRun g (init + g i) l).1,
          (init, g i) :: (accRun g (init + g i) l).2) := by
  show (l.foldl _ (init + g i, [] ++ [(init, g i)])) = _
  rw [accRun_go]
  simp

theorem accRun_fst (g : ℕ → G) (l : List ℕ) :
    ∀ init : G, (accRun g init l).1 = init + (l.map g).sum := by
  induction l with
  | nil => intro init; simp [accRun]
  | cons i l ih =>
    intro init
    rw [accRun_cons, List.map_cons, List.sum_cons]
    show (accRun g (init + g i) l).1 = _
    rw [ih, add_assoc]

theorem accRun_append (g : ℕ → G) (l l' : List ℕ) (init : G) :
    accRun g init (l ++ l')
      = ((accRun g (accRun g init l).1 l').1,
          (accRun g init l).2 ++ (accRun g (accRun g init l).1 l').2) := by
  show ((l ++ l').foldl _ (init, [])) = _
  rw [List.foldl_append]
  show ((l').foldl _ ((accRun g init l).1, (accRun g init l).2)) = _
  rw [accRun_go]

/-- Every recorded step of a phase over the digit indices `e 0, ..., e (n-1)`
is, for some `k < n`, the pair (seed plus the partial sum of the first `k`
entries, the `k`-th entry). -/
theorem accRun_range_map_mem (g : ℕ → G) (e : ℕ → ℕ) (n : ℕ) (init : G)
    (pr : G × G) (h : pr ∈ (accRun g init ((List.range n).map e)).2) :
    ∃ k, k < n ∧
      pr = (init + (((List.range k).map e).map g).sum, g (e k)) := by
  induction n with
  | zero => simp [accRun] at h
  | succ n ih =>
    rw [List.range_succ, List.map_append, accRun_append] at h
    rcases List.mem_append.mp h with h1 | h2
    · obtain ⟨k, hk, hpr⟩ := ih h1
      exact ⟨k, by omega, hpr⟩
    · refine ⟨n, by omega, ?_⟩
      have hsing : (accRun g (accRun g init ((List.range n).map e)).1
            (List.map e [n])).2
          = [((accRun g init ((List.range n).map e)).1, g (e n))] := by
        simp [accRun]
      rw [hsing, List.mem_singleton] at h2
      rw [h2, accRun_fst]

/-- The scalar coefficient accumulated by the first `k` odd-digit steps:
the accumulator entering odd step `k` is `S + oddPartialZ a k • P`. -/
def oddPartialZ (a : ℕ → ℤ) (k : ℕ) : ℤ :=
  Finset.sum (Finset.range k) (fun j => a (2 * j + 1) * 2 ^ (8 * j))

/-- The scalar coefficient accumulated when entering even step `k`
(the whole odd phase scaled by the 4 doublings, plus `k` even steps):
the accumulator entering even step `k` is `2^4 • S + evenPartialZ a k • P`. -/
def evenPartialZ (a : ℕ → ℤ) (k : ℕ) : ℤ :=
  2 ^ 4 * oddPartialZ a 32
    + Finset.sum (Finset.range k) (fun j => a (2 * j) * 2 ^ (8 * j))

/-- The odd-phase partial sums of table entries, in group form. -/
theorem odd_map_sum_eq (P : G) (a : ℕ → ℤ)
    (hrange : ∀ i, i < 64 → -8 ≤ a i ∧ a i ≤ 8) (n : ℕ) (hn : n ≤ 32) :
    (((List.range n).map (fun j => 2 * j + 1)).map
        (fun i => getPoint (basePointTable P (i / 2)) 8 (a i))).sum
      = oddPartialZ a n • P := by
  rw [List.map_map, range_map_sum, oddPartialZ, Finset.sum_smul]
  apply Finset.sum_congr rfl
  intro j hj
  have hjn : j < n := Finset.mem_range.mp hj
  simp only [Function.comp]
  rw [multiply_term_eq P a hrange (2 * j + 1) (by omega),
    show (2 * j + 1) / 2 = j from by omega]

/-- The even-phase partial sums of table entries, in group form. -/
theorem even_map_sum_eq (P : G) (a : ℕ → ℤ)
    (hrange : ∀ i, i < 64 → -8 ≤ a i ∧ a i ≤ 8) (n : ℕ) (hn : n ≤ 32) :
    (((List.range n).map (fun j => 2 * j)).map
        (fun i => getPoint (basePointTable P (i / 2)) 8 (a i))).sum
      = (Finset.sum (Finset.range n)
          (fun j => a (2 * j) * 2 ^ (8 * j))) • P := by
  rw [List.map_map, range_map_sum, Finset.sum_smul]
  apply Finset.sum_congr rfl
  intro j hj
  have hjn : j < n := Finset.mem_range.mp hj
  simp only [Function.comp]
  rw [multiply_term_eq P a hrange (2 * j) (by omega),
    show 2 * j / 2 = j from by omega]

/-- Under the odd-phase collision-avoidance conditions, every recorded
odd-phase step is non-degenerate. -/
theorem odd_trace_nondegenerate (P S : G) (a : ℕ → ℤ)
    (hrange : ∀ i, i < 64 → -8 ≤ a i ∧ a i ≤ 8)
    (hoddStep : ∀ k, k < 32 →
      S + oddPartialZ a k • P ≠ 0 ∧
      S + oddPartialZ a k • P ≠ (a (2 * k + 1) * 2 ^ (8 * k)) • P ∧
      S + oddPartialZ a k • P ≠ -((a (2 * k + 1) * 2 ^ (8 * k)) • P)) :
    ∀ pr ∈ (accRun (fun i => getPoint (basePointTable P (i / 2)) 8 (a i)) S
        ((List.range 32).map (fun j => 2 * j + 1))).2,
      pr.1 ≠ 0 ∧ pr.1 ≠ pr.2 ∧ pr.1 ≠ -pr.2 := by
  intro pr h1
  obtain ⟨k, hk, hpr1⟩ :=
    accRun_range_map_mem (fun i => getPoint (basePointTable P (i / 2)) 8 (a i))
      (fun j => 2 * j + 1) 32 S pr h1
  have hentry : getPoint (basePointTable P ((2 * k + 1) / 2)) 8 (a (2 * k + 1))
      = (a (2 * k + 1) * 2 ^ (8 * k)) • P := by
    rw [multiply_term_eq P a hrange (2 * k + 1) (by omega),
      show (2 * k + 1) / 2 = k from by omega]
  rw [hpr1, odd_map_sum_eq P a hrange k (by omega), hentry]
  exact hoddStep k hk

/-- Under the even-phase collision-avoidance conditions, every recorded
even-phase step is non-degenerate. -/
theorem even_trace_nondegenerate (P S : G) (a : ℕ → ℤ)
    (hrange : ∀ i, i < 64 → -8 ≤ a i ∧ a i ≤ 8)
    (hevenStep : ∀ k, k < 32 →
      (2 ^ 4 : ℤ) • S + evenPartialZ a k • P ≠ 0 ∧
      (2 ^ 4 : ℤ) • S + evenPartialZ a k • P ≠ (a (2 * k) * 2 ^ (8 * k)) • P ∧
      (2 ^ 4 : ℤ) • S + evenPartialZ a k • P
        ≠ -((a (2 * k) * 2 ^ (8 * k)) • P)) :
    ∀ pr ∈ (accRun (fun i => getPoint (basePointTable P (i / 2)) 8 (a i))
        (doubleMulti 4
          (accRun (fun i => getPoint (basePointTable P (i / 2)) 8 (a i)) S
            ((List.range 32).map (fun j => 2 * j + 1))).1)
        ((List.range 32).map (fun j => 2 * j))).2,
      pr.1 ≠ 0 ∧ pr.1 ≠ pr.2 ∧ pr.1 ≠ -pr.2 := by
  intro pr h2
  obtain ⟨k, hk, hpr2⟩ :=
    accRun_range_map_mem (fun i => getPoint (basePointTable P (i / 2)) 8 (a i))
      (fun j => 2 * j) 32 _ pr h2
  have hinit : doubleMulti 4
        (accRun (fun i => getPoint (basePointTable P (i / 2)) 8 (a i)) S
          ((List.range 32).map (fun j => 2 * j + 1))).1
      = (2 ^ 4 : ℤ) • S + ((2 : ℤ) ^ 4 * oddPartialZ a 32) • P := by
    rw [accRun_fst, odd_map_sum_eq P a hrange 32 le_rfl, doubleMulti,
      smul_add, smul_smul]
  have hentry : getPoint (basePointTable P (2 * k / 2)) 8 (a (2 * k))
      = (a (2 * k) * 2 ^ (8 * k)) • P := by
    rw [multiply_term_eq P a hrange (2 * k) (by omega),
      show 2 * k / 2 = k from by omega]
  rw [hpr2, hinit, even_map_sum_eq P a hrange k (by omega), hentry,
    add_assoc, ← add_smul]
  exact hevenStep k hk

/-- Claim C2, counterexample: the claim asserts that for EVERY base point and
digit array in range the accumulator is never the identity nor `±` the entry
at any of the 64 unchecked steps.  It fails at the concrete input
`P = -S` with the digit array of the scalar `16` (digit `1` at index `1`,
which `bytes_to_radix_16` produces for the byte encoding of `16`): the very
first odd step adds the entry `1 • P = -S` to the accumulator `S`, the exact
`acc = -entry` degenerate case (and the following steps then run on the
identity accumulator).  Exhibited in the group `ℤ` with `S = 1`, `P = -1`. -/
theorem claim2_shift_invariant_counterexample :
    ¬ (∀ pr ∈ multiplyTrace (-1 : ℤ) 1 (fun i => if i = 1 then 1 else 0),
        pr.1 ≠ 0 ∧ pr.1 ≠ pr.2 ∧ pr.1 ≠ -pr.2) := by
  decide

/-- Claim C2 (amended): the accumulator entering odd step `k` is exactly
`S + oddPartialZ a k • P` and entering even step `k` is exactly
`2^4 • S + evenPartialZ a k • P`; hence every one of the 64 unchecked
mixed additions is non-degenerate (accumulator nonzero and different from
`±` entry) IF the shift point avoids the at most `3 × 64` collision values
these closed forms determine — which a fixed public shift point does for
generic operands, but which fails for adversarially related inputs such as
`P = -S` with scalar `16`. -/
theorem claim2_shift_invariant_amended (P S : G) (a : ℕ → ℤ)
    (hrange : ∀ i, i < 64 → -8 ≤ a i ∧ a i ≤ 8)
    (hoddStep : ∀ k, k < 32 →
      S + oddPartialZ a k • P ≠ 0 ∧
      S + oddPartialZ a k • P ≠ (a (2 * k + 1) * 2 ^ (8 * k)) • P ∧
      S + oddPartialZ a k • P ≠ -((a (2 * k + 1) * 2 ^ (8 * k)) • P))
    (hevenStep : ∀ k, k < 32 →
      (2 ^ 4 : ℤ) • S + evenPartialZ a k • P ≠ 0 ∧
      (2 ^ 4 : ℤ) • S + evenPartialZ a k • P ≠ (a (2 * k) * 2 ^ (8 * k)) • P ∧
      (2 ^ 4 : ℤ) • S + evenPartialZ a k • P
        ≠ -((a (2 * k) * 2 ^ (8 * k)) • P)) :
    ∀ pr ∈ multiplyTrace P S a, pr.1 ≠ 0 ∧ pr.1 ≠ pr.2 ∧ pr.1 ≠ -pr.2 := by
  intro pr hpr
  simp only [multiplyTrace] at hpr
  rw [odd_filter_eq, even_filter_eq] at hpr
  rcases List.mem_append.mp hpr with h1 | h2
  · exact odd_trace_nondegenerate P S a hrange hoddStep pr h1
  · exact even_trace_nondegenerate P S a hrange hevenStep pr h2

/-- Claim C2, witness: in the group `ℤ` with shift point `1`, base point `1`
and the all-`2` digit array, the collision-avoidance hypotheses hold by
computation, and the theorem applied to the first recorded step
`(accumulator 1, entry 2)` shows it non-degenerate. -/
theorem claim2_shift_invariant_amended_witness :
    ((1 : ℤ), (2 : ℤ)) ∈ multiplyTrace (1 : ℤ) 1 (fun _ => 2) ∧
    (((1 : ℤ), (2 : ℤ)).1 ≠ 0 ∧ ((1 : ℤ), (2 : ℤ)).1 ≠ ((1 : ℤ), (2 : ℤ)).2 ∧
      ((1 : ℤ), (2 : ℤ)).1 ≠ -((1 : ℤ), (2 : ℤ)).2) :=
  ⟨by decide,
   claim2_shift_invariant_amended (1 : ℤ) 1 (fun _ => 2) (by decide) (by decide)
     (by decide) ((1 : ℤ), (2 : ℤ)) (by decide)⟩

/-! ## Claim C1: `BasePointTable::multiply` -/

/-- Folding a digit phase through the partial `addMixedUnchecked` succeeds
and computes the group-law accumulation exactly when every recorded step of
the phase is non-degenerate. -/
theorem foldl_bind_eq [DecidableEq G] (g : ℕ → G) (l : List ℕ) (init : G)
    (h : ∀ pr ∈ (accRun g init l).2, pr.1 ≠ 0 ∧ pr.1 ≠ pr.2 ∧ pr.1 ≠ -pr.2) :
    l.foldl (fun acc i => acc.bind (fun t => addMixedUnchecked t (g i)))
        (some init)
      = some (init + (l.map g).sum) := by
  induction l generalizing init with
  | nil => simp
  | cons i l ih =>
    have hstep := h (init, g i)
      (by rw [accRun_cons]; exact List.mem_cons_self _ _)
    have htail : ∀ pr ∈ (accRun g (init + g i) l).2,
        pr.1 ≠ 0 ∧ pr.1 ≠ pr.2 ∧ pr.1 ≠ -pr.2 := by
      intro pr hpr
      exact h pr (by rw [accRun_cons]; exact List.mem_cons_of_mem _ hpr)
    rw [List.foldl_cons]
    have hadd : (some init).bind (fun t => addMixedUnchecked t (g i))
        = some (init + g i) := by
      show addMixedUnchecked init (g i) = some (init + g i)
      unfold addMixedUnchecked
      rw [if_neg]
      push_neg
      exact ⟨hstep.1, hstep.2.1, hstep.2.2⟩
    rw [hadd, ih (init + g i) htail, List.map_cons, List.sum_cons, add_assoc]

/-- Claim C1, counterexample: the claim asserts that
`BasePointTable::from(P).multiply(s)` represents `s • P` for EVERY base
point, assuming only the digit contract.  It fails at the concrete reachable
input `P = -SHIFT_POINT` with the digit array of the scalar `16` (digit `1`
at index `1`, which `bytes_to_radix_16` produces for the byte encoding of
`16`): the very first unchecked addition is the degenerate `acc = -entry`
case (see claim C2), where the unchecked formula's output is unspecified, so
the run does not return `16 • P`.  Exhibited in the group `ℤ` with
`S = 1`, `P = -1`, where the degenerate run yields `none ≠ some (16 • P)`. -/
theorem claim1_base_point_multiply_counterexample :
    Finset.sum (Finset.range 64)
        (fun i => (if i = 1 then (1 : ℤ) else 0) * 16 ^ i) = 16 ∧
    basePointMultiply (-1 : ℤ) 1 (fun i => if i = 1 then 1 else 0)
      ≠ some ((16 : ℤ) • (-1 : ℤ)) :=
  ⟨by decide, by decide⟩

/-- Claim C1 (amended): for every base point `P`, shift point `S` and digit
array in `[-8, 8]` representing the scalar `s` in signed radix 16 (the
contract of `Scalar::bytes_to_radix_16`), PROVIDED every unchecked addition
is non-degenerate — the accumulator closed forms `S + oddPartialZ a k • P`,
`2^4 • S + evenPartialZ a k • P` and the final shift-subtraction input avoid
the identity and `±` their entry, the condition analyzed in claim C2 —
`BasePointTable::from(P).multiply` returns the point `s • P`: odd digits
accumulate from the shift seed, 4 doublings scale phase one by 16, even
digits accumulate, and the precomputed `-(2^4) • S` cancels the net shift
exactly. -/
theorem claim1_base_point_multiply_amended [DecidableEq G] (P S : G)
    (a : ℕ → ℤ) (s : ℤ)
    (hrange : ∀ i, i < 64 → -8 ≤ a i ∧ a i ≤ 8)
    (hsum : Finset.sum (Finset.range 64) (fun i => a i * 16 ^ i) = s)
    (hoddStep : ∀ k, k < 32 →
      S + oddPartialZ a k • P ≠ 0 ∧
      S + oddPartialZ a k • P ≠ (a (2 * k + 1) * 2 ^ (8 * k)) • P ∧
      S + oddPartialZ a k • P ≠ -((a (2 * k + 1) * 2 ^ (8 * k)) • P))
    (hevenStep : ∀ k, k < 32 →
      (2 ^ 4 : ℤ) • S + evenPartialZ a k • P ≠ 0 ∧
      (2 ^ 4 : ℤ) • S + evenPartialZ a k • P ≠ (a (2 * k) * 2 ^ (8 * k)) • P ∧
      (2 ^ 4 : ℤ) • S + evenPartialZ a k • P
        ≠ -((a (2 * k) * 2 ^ (8 * k)) • P))
    (hfinal : (2 ^ 4 : ℤ) • S + evenPartialZ a 32 • P ≠ 0 ∧
      (2 ^ 4 : ℤ) • S + evenPartialZ a 32 • P ≠ -((2 ^ 4 : ℤ) • S) ∧
      (2 ^ 4 : ℤ) • S + evenPartialZ a 32 • P ≠ (2 ^ 4 : ℤ) • S) :
    basePointMultiply P S a = some (s • P) := by
  simp only [basePointMultiply]
  rw [odd_filter_eq, even_filter_eq,
    foldl_bind_eq _ _ S (odd_trace_nondegenerate P S a hrange hoddStep),
    Option.map_some']
  have heven := even_trace_nondegenerate P S a hrange hevenStep
  rw [accRun_fst (fun i => getPoint (basePointTable P (i / 2)) 8 (a i))
      ((List.range 32).map (fun j => 2 * j + 1)) S] at heven
  rw [foldl_bind_eq _ _ _ heven,
    odd_map_sum_eq P a hrange 32 le_rfl, even_map_sum_eq P a hrange 32 le_rfl]
  have hval : doubleMulti 4 (S + oddPartialZ a 32 • P)
        + (Finset.sum (Finset.range 32)
            (fun j => a (2 * j) * 2 ^ (8 * j))) • P
      = (2 ^ 4 : ℤ) • S + evenPartialZ a 32 • P := by
    rw [doubleMulti, smul_add, smul_smul, add_assoc, ← add_smul, evenPartialZ]
  rw [hval]
  show addMixedUnchecked ((2 ^ 4 : ℤ) • S + evenPartialZ a 32 • P)
      (minusShiftPoint S 4) = some (s • P)
  simp only [addMixedUnchecked, minusShiftPoint, doubleMulti]
  have hng : ¬((2 ^ 4 : ℤ) • S + evenPartialZ a 32 • P = 0 ∨
      (2 ^ 4 : ℤ) • S + evenPartialZ a 32 • P = -((2 ^ 4 : ℤ) • S) ∨
      (2 ^ 4 : ℤ) • S + evenPartialZ a 32 • P = -(-((2 ^ 4 : ℤ) • S))) := by
    push_neg
    exact ⟨hfinal.1, hfinal.2.1, by rw [neg_neg]; exact hfinal.2.2⟩
  rw [if_neg hng]
  have hes : evenPartialZ a 32 = s := by
    rw [evenPartialZ, oddPartialZ, radix16_sum_split a s hsum]
    ring
  rw [Option.some_inj, ← hes]
  abel

/-- Claim C1, witness: in the group `ℤ` with base point `1` and shift point
`1`, the all-`2` digit array is non-degenerate at every step (including the
final shift subtraction), and `multiply` returns the represented scalar
multiple. -/
theorem claim1_base_point_multiply_amended_witness :
    basePointMultiply (1 : ℤ) 1 (fun _ => 2)
      = some ((Finset.sum (Finset.range 64) (fun i => (2 : ℤ) * 16 ^ i))
          • (1 : ℤ)) :=
  claim1_base_point_multiply_amended (1 : ℤ) 1 (fun _ => 2)
    (Finset.sum (Finset.range 64) (fun i => (2 : ℤ) * 16 ^ i))
    (by decide) rfl (by decide) (by decide) (by decide)
